import Mathlib

/-!
Verification model of the `mutable-bson` crate: a shallow embedding of
`src/lib.rs` and `src/parsed_document.rs`.

Conventions of the embedding:
* Byte buffers are `List Nat` (each element conceptually a byte value).
* Rust strings are modelled by their UTF-8 byte lists (`List Nat`);
  `s.len()` becomes `List.length`, "contains a NUL byte" becomes `0 ∈ s`.
* `f64`, `ObjectId` and `Decimal128` payloads are modelled by the bit
  patterns / identifier bytes that their `put` methods emit.
* Fallible Rust code is modelled with `Except`; a Rust `panic!` /
  `unimplemented!` / `expect` failure is the `PutError.panik` case, a
  `bson::ser::Error` return is the `PutError.ser` case.
* `BufMut` sinks are modelled by returning the list of bytes appended.
-/

/-- Errors of type `bson::ser::Error` that this crate can construct:
`InvalidCString` (carrying the offending string) from `put_raw_cstr`, and
the `Io(InvalidData, "Exceeded max document length")` error from `to_vec`. -/
inductive SerError where
  | invalidCString (s : List Nat)
  | ioInvalidData
deriving DecidableEq, Repr

/-- Outcome classification for encoding: a typed `bson::ser::Error` return
(`ser`) or a Rust panic (`panik`, from `unimplemented!` or `.expect`). -/
inductive PutError where
  | ser (e : SerError)
  | panik
deriving DecidableEq, Repr

/-- `raw_cstr_len` from `src/lib.rs`: `s.len() + 1`. -/
def raw_cstr_len (s : List Nat) : Nat := s.length + 1

/-- `put_raw_cstr` from `src/lib.rs`: fails with `InvalidCString` if the
string contains a NUL byte, otherwise writes the bytes plus a NUL. -/
def put_raw_cstr (s : List Nat) : Except PutError (List Nat) :=
  if 0 ∈ s then .error (.ser (.invalidCString s)) else .ok (s ++ [0])

/-- `raw_str_len` from `src/lib.rs`: `4 + s.len() + 1`. -/
def raw_str_len (s : List Nat) : Nat := 4 + s.length + 1

/-- Little-endian byte decomposition: `leBytes w n` is the `w`-byte
little-endian encoding of `n` (each byte `< 256`), as written by
`put_u32_le` / `put_u64_le` / `put_slice` on fixed-width data. -/
def leBytes : Nat → Nat → List Nat
  | 0, _ => []
  | w + 1, n => n % 256 :: leBytes w (n / 256)

/-- Two's-complement 32-bit little-endian encoding of an `i32`,
as written by `put_i32_le`. -/
def i32le (v : Int) : List Nat := leBytes 4 (v % (2 ^ 32 : Int)).toNat

/-- Two's-complement 64-bit little-endian encoding of an `i64`,
as written by `put_i64_le`. -/
def i64le (v : Int) : List Nat := leBytes 8 (v % (2 ^ 64 : Int)).toNat

/-- `usize::try_into::<i32>().expect(..)`: converting a length for
`put_i32_le` panics when the value exceeds `i32::MAX`; on success the four
little-endian bytes are written. -/
def putLenI32 (n : Nat) : Except PutError (List Nat) :=
  if n ≤ 2 ^ 31 - 1 then .ok (leBytes 4 n) else .error .panik

/-- `put_raw_str` from `src/lib.rs`: writes `put_i32_le(s.len() + 1)`
(panicking if it does not fit an `i32`), the raw bytes, and a NUL.
It performs no embedded-NUL check. -/
def put_raw_str (s : List Nat) : Except PutError (List Nat) :=
  match putLenI32 (s.length + 1) with
  | .error e => .error e
  | .ok lenB => .ok (lenB ++ s ++ [0])

example : put_raw_str [120, 0, 121] = .ok [4, 0, 0, 0, 120, 0, 121, 0] := rfl
example : put_raw_cstr [120, 0, 121] = .error (.ser (.invalidCString [120, 0, 121])) := rfl

/-- Decimal ASCII digits of `n`, most significant first, with explicit fuel
(`fuel > n` suffices); models `itoa::Buffer::format`. -/
def decBytesCore : Nat → Nat → List Nat → List Nat
  | 0, _, acc => acc
  | fuel + 1, n, acc =>
    if n < 10 then (48 + n) :: acc
    else decBytesCore fuel (n / 10) ((48 + n % 10) :: acc)

/-- The ASCII bytes of the decimal representation of `n`, as produced by
`itoa::Buffer::format` for array keys. -/
def decBytes (n : Nat) : List Nat := decBytesCore (n + 1) n []

example : decBytes 0 = [48] := rfl
example : decBytes 10 = [49, 48] := rfl
example : decBytes 123 = [49, 50, 51] := rfl

/-- `MutableBinary` from `src/lib.rs`: `Borrowed(RawBinaryRef)` or
`Owned(Binary)`; both expose the same `bytes`/`subtype` fields. -/
inductive MutableBinary where
  | borrowed (bytes : List Nat) (subtypeByte : Nat)
  | owned (bytes : List Nat) (subtypeByte : Nat)
deriving DecidableEq, Repr

/-- `MutableRegex` from `src/lib.rs`: `Borrowed(RawRegexRef)` or
`Owned(Regex)`; both expose `pattern` and `options` strings. -/
inductive MutableRegex where
  | borrowed (pattern options : List Nat)
  | owned (pattern options : List Nat)
deriving DecidableEq, Repr

/-- `MutableJavaScriptCodeWithScope` from `src/lib.rs`. The `Borrowed` case
holds `code` and the scope document's raw bytes (`scope.as_bytes()`). For
the `Owned` case the scope is a `bson::Document` encoded by the external
`bson::to_vec` collaborator; we model it by the encoded bytes that
`bson::to_vec` deterministically produces for it (both `raw_len` and `put`
call `bson::to_vec` on the same unchanged scope). -/
inductive MutableJavaScriptCodeWithScope where
  | borrowed (code scopeBytes : List Nat)
  | owned (code scopeBytes : List Nat)
deriving DecidableEq, Repr

mutual

/-- `MutableValue` from `src/lib.rs`: one constructor per wire element
kind. Fixed-size payloads are held as the data their `put` emits
(`double`/`decimal128` bit patterns, `ObjectId` identifier bytes as a
number, `DateTime` as `timestamp_millis`). `DbPointer` is opaque: its
components are not visible to the crate. -/
inductive MutableValue where
  | double (bits : Nat)
  | string (s : List Nat)
  | document (d : MutableDocument)
  | array (a : MutableArray)
  | binary (b : MutableBinary)
  | undefined
  | objectId (oid : Nat)
  | boolean (v : Bool)
  | dateTime (millis : Int)
  | null
  | regularExpression (r : MutableRegex)
  | dbPointer
  | javaScriptCode (s : List Nat)
  | symbol (s : List Nat)
  | javaScriptCodeWithScope (c : MutableJavaScriptCodeWithScope)
  | int32 (v : Int)
  | timestamp (increment time : Nat)
  | int64 (v : Int)
  | decimal128 (bits : Nat)
  | minKey
  | maxKey

/-- `MutableDocument` from `src/lib.rs`: `Borrowed(&RawDocument)` (a byte
span) or `Owned(ParsedDocument)`. -/
inductive MutableDocument where
  | borrowed (bytes : List Nat)
  | owned (entries : ParsedDocument)

/-- `ParsedDocument` from `src/parsed_document.rs`: an insertion-ordered
key → value map (`IndexMap`), modelled as an ordered entry sequence. The
`IndexMap` invariant (unique keys) holds for maps built by its API. -/
inductive ParsedDocument where
  | nil
  | cons (key : List Nat) (value : MutableValue) (rest : ParsedDocument)

/-- `MutableArray` from `src/lib.rs`: `Borrowed(&RawArray)` (a byte span)
or `Owned(Vec<MutableValue>)`. -/
inductive MutableArray where
  | borrowed (bytes : List Nat)
  | owned (values : MutableValues)

/-- The `Vec<MutableValue>` payload of an owned `MutableArray`. -/
inductive MutableValues where
  | nil
  | cons (value : MutableValue) (rest : MutableValues)

end

/-- `MutableValue::element_type` from `src/lib.rs`: the wire type tag
(`bson::spec::ElementType` numeric values). -/
def MutableValue.element_type : MutableValue → Nat
  | .double _ => 0x01
  | .string _ => 0x02
  | .document _ => 0x03
  | .array _ => 0x04
  | .binary _ => 0x05
  | .undefined => 0x06
  | .objectId _ => 0x07
  | .boolean _ => 0x08
  | .dateTime _ => 0x09
  | .null => 0x0A
  | .regularExpression _ => 0x0B
  | .dbPointer => 0x0C
  | .javaScriptCode _ => 0x0D
  | .symbol _ => 0x0E
  | .javaScriptCodeWithScope _ => 0x0F
  | .int32 _ => 0x10
  | .timestamp _ _ => 0x11
  | .int64 _ => 0x12
  | .decimal128 _ => 0x13
  | .minKey => 0xFF
  | .maxKey => 0x7F

/-- `MutableBinary::raw_len`: `4 + bytes.len() + 1`. -/
def MutableBinary.raw_len : MutableBinary → Nat
  | .borrowed bytes _ => 4 + bytes.length + 1
  | .owned bytes _ => 4 + bytes.length + 1

/-- `MutableBinary::put`: `put_i32_le(bytes.len())` (panicking if it does
not fit an `i32`), the subtype byte, then the payload bytes. -/
def MutableBinary.put : MutableBinary → Except PutError (List Nat)
  | .borrowed bytes subtypeByte =>
    match putLenI32 bytes.length with
    | .error e => .error e
    | .ok lenB => .ok (lenB ++ subtypeByte :: bytes)
  | .owned bytes subtypeByte =>
    match putLenI32 bytes.length with
    | .error e => .error e
    | .ok lenB => .ok (lenB ++ subtypeByte :: bytes)

/-- `MutableRegex::parts`. -/
def MutableRegex.parts : MutableRegex → List Nat × List Nat
  | .borrowed pattern options => (pattern, options)
  | .owned pattern options => (pattern, options)

/-- `MutableRegex::raw_len`: `raw_cstr_len(pattern) + raw_cstr_len(options)`. -/
def MutableRegex.raw_len (r : MutableRegex) : Nat :=
  raw_cstr_len r.parts.1 + raw_cstr_len r.parts.2

/-- `MutableRegex::put`: `put_raw_cstr(pattern)?` then `put_raw_cstr(options)`. -/
def MutableRegex.put (r : MutableRegex) : Except PutError (List Nat) :=
  match put_raw_cstr r.parts.1 with
  | .error e => .error e
  | .ok pb =>
    match put_raw_cstr r.parts.2 with
    | .error e => .error e
    | .ok ob => .ok (pb ++ ob)

/-- The `code` field of a `MutableJavaScriptCodeWithScope`. -/
def MutableJavaScriptCodeWithScope.codeOf : MutableJavaScriptCodeWithScope → List Nat
  | .borrowed code _ => code
  | .owned code _ => code

/-- The scope document's encoded bytes (`scope.as_bytes()` for `Borrowed`,
the `bson::to_vec(&scope)` output for `Owned`). -/
def MutableJavaScriptCodeWithScope.scopeBytesOf : MutableJavaScriptCodeWithScope → List Nat
  | .borrowed _ scopeBytes => scopeBytes
  | .owned _ scopeBytes => scopeBytes

/-- `MutableJavaScriptCodeWithScope::raw_len`:
`4 + raw_str_len(code) + scope-bytes length` for both cases. -/
def MutableJavaScriptCodeWithScope.raw_len (c : MutableJavaScriptCodeWithScope) : Nat :=
  4 + raw_str_len c.codeOf + c.scopeBytesOf.length

/-- `MutableJavaScriptCodeWithScope::put`:
`put_i32_le(raw_str_len(code) + scope.len() + 4)` (panicking if it does
not fit an `i32`), then the length-prefixed code string, then the scope
document's bytes. -/
def MutableJavaScriptCodeWithScope.put (c : MutableJavaScriptCodeWithScope) :
    Except PutError (List Nat) :=
  match putLenI32 (raw_str_len c.codeOf + c.scopeBytesOf.length + 4) with
  | .error e => .error e
  | .ok lenB =>
    match put_raw_str c.codeOf with
    | .error e => .error e
    | .ok cb => .ok (lenB ++ cb ++ c.scopeBytesOf)

mutual

/-- `MutableValue::raw_len` from `src/lib.rs`. Returns `none` exactly when
the Rust code panics (`unimplemented!` for `DbPointer`, reachable through
nested documents/arrays). -/
def MutableValue.raw_len : MutableValue → Option Nat
  | .double _ => some 8
  | .string s => some (raw_str_len s)
  | .document d => d.raw_len
  | .array a => a.raw_len
  | .binary b => some b.raw_len
  | .undefined => some 0
  | .objectId _ => some 12
  | .boolean _ => some 1
  | .dateTime _ => some 8
  | .null => some 0
  | .regularExpression r => some r.raw_len
  | .dbPointer => none
  | .javaScriptCode s => some (raw_str_len s)
  | .symbol s => some (raw_str_len s)
  | .javaScriptCodeWithScope c => some c.raw_len
  | .int32 _ => some 4
  | .timestamp _ _ => some 8
  | .int64 _ => some 8
  | .decimal128 _ => some 16
  | .minKey => some 0
  | .maxKey => some 0
termination_by structural v => v

/-- Sum over `ParsedDocument` entries of
`1 + raw_cstr_len(key) + value.raw_len()` (the loop body of
`ParsedDocument::raw_len`). -/
def ParsedDocument.entries_len : ParsedDocument → Option Nat
  | .nil => some 0
  | .cons k v rest =>
    match v.raw_len with
    | none => none
    | some lv =>
      match rest.entries_len with
      | none => none
      | some lr => some (1 + raw_cstr_len k + lv + lr)
termination_by structural es => es

/-- `MutableDocument::raw_len`: span length for `Borrowed`,
`ParsedDocument::raw_len` (entry sum + 4 + 1) for `Owned`. -/
def MutableDocument.raw_len : MutableDocument → Option Nat
  | .borrowed bytes => some bytes.length
  | .owned es =>
    match es.entries_len with
    | none => none
    | some n => some (n + 4 + 1)
termination_by structural d => d

/-- Sum over the values of an owned `MutableArray`, starting at index `i`,
of `1 + raw_cstr_len(itoa(index)) + value.raw_len()` (the loop body of
`MutableArray::raw_len`). -/
def MutableValues.entries_len_from : Nat → MutableValues → Option Nat
  | _, .nil => some 0
  | i, .cons v rest =>
    match v.raw_len with
    | none => none
    | some lv =>
      match MutableValues.entries_len_from (i + 1) rest with
      | none => none
      | some lr => some (1 + raw_cstr_len (decBytes i) + lv + lr)
termination_by structural _ vs => vs

/-- `MutableArray::raw_len`: span length for `Borrowed`; for `Owned` the
enumerated entry sum (with synthesized decimal keys) + 4 + 1. -/
def MutableArray.raw_len : MutableArray → Option Nat
  | .borrowed bytes => some bytes.length
  | .owned vs =>
    match vs.entries_len_from 0 with
    | none => none
    | some n => some (n + 4 + 1)
termination_by structural a => a

end

mutual

/-- `MutableValue::put` from `src/lib.rs`. -/
def MutableValue.put : MutableValue → Except PutError (List Nat)
  | .double bits => .ok (leBytes 8 bits)
  | .string s => put_raw_str s
  | .document d => d.put
  | .array a => a.put
  | .binary b => b.put
  | .undefined => .ok []
  | .objectId oid => .ok (leBytes 12 oid)
  | .boolean v => .ok [if v then 1 else 0]
  | .dateTime millis => .ok (i64le millis)
  | .null => .ok []
  | .regularExpression r => r.put
  | .dbPointer => .error .panik
  | .javaScriptCode s => put_raw_str s
  | .symbol s => put_raw_str s
  | .javaScriptCodeWithScope c => c.put
  | .int32 v => .ok (i32le v)
  | .timestamp increment time => .ok (leBytes 4 increment ++ leBytes 4 time)
  | .int64 v => .ok (i64le v)
  | .decimal128 bits => .ok (leBytes 16 bits)
  | .minKey => .ok []
  | .maxKey => .ok []
termination_by structural v => v

/-- The entry loop of `ParsedDocument::put`: for each entry, the element
type tag byte, the NUL-terminated key (`put_raw_cstr(k)?`), then the value
bytes (`v.put(buf)?`). -/
def ParsedDocument.put_entries : ParsedDocument → Except PutError (List Nat)
  | .nil => .ok []
  | .cons k v rest =>
    match put_raw_cstr k with
    | .error e => .error e
    | .ok kb =>
      match v.put with
      | .error e => .error e
      | .ok vb =>
        match rest.put_entries with
        | .error e => .error e
        | .ok rb => .ok (v.element_type :: (kb ++ vb ++ rb))
termination_by structural es => es

/-- `MutableDocument::put`: verbatim byte copy for `Borrowed`; for `Owned`
the body of `ParsedDocument::put` from `src/parsed_document.rs`: writes
`put_i32_le(self.raw_len())` (recomputing the length, panicking on
`unimplemented!` inside it or on `i32` overflow), then every entry, then a
terminating NUL. -/
def MutableDocument.put : MutableDocument → Except PutError (List Nat)
  | .borrowed bytes => .ok bytes
  | .owned es =>
    match es.entries_len with
    | none => .error .panik
    | some n =>
      match putLenI32 (n + 4 + 1) with
      | .error e => .error e
      | .ok lenB =>
        match es.put_entries with
        | .error e => .error e
        | .ok body => .ok (lenB ++ body ++ [0])
termination_by structural d => d

/-- The entry loop of `MutableArray::put` for `Owned`: for each value, the
tag byte, the NUL-terminated decimal index key (whose `put_raw_cstr`
result is `.expect`ed — a panic if it could fail — since `itoa` output
never contains NUL), then the value bytes. -/
def MutableValues.put_from : Nat → MutableValues → Except PutError (List Nat)
  | _, .nil => .ok []
  | i, .cons v rest =>
    match put_raw_cstr (decBytes i) with
    | .error _ => .error .panik
    | .ok kb =>
      match v.put with
      | .error e => .error e
      | .ok vb =>
        match MutableValues.put_from (i + 1) rest with
        | .error e => .error e
        | .ok rb => .ok (v.element_type :: (kb ++ vb ++ rb))
termination_by structural _ vs => vs

/-- `MutableArray::put`: verbatim byte copy for `Borrowed`; for `Owned`,
`put_i32_le(self.raw_len())` (recomputed, panicking on `unimplemented!`
inside it or on `i32` overflow), then the enumerated entries, then a
terminating NUL. -/
def MutableArray.put : MutableArray → Except PutError (List Nat)
  | .borrowed bytes => .ok bytes
  | .owned vs =>
    match vs.entries_len_from 0 with
    | none => .error .panik
    | some n =>
      match putLenI32 (n + 4 + 1) with
      | .error e => .error e
      | .ok lenB =>
        match vs.put_from 0 with
        | .error e => .error e
        | .ok body => .ok (lenB ++ body ++ [0])
termination_by structural a => a

end

/-- `ParsedDocument::put` from `src/parsed_document.rs` (the `Owned`
branch of `MutableDocument::put`, split out for direct statements). -/
def ParsedDocument.put (es : ParsedDocument) : Except PutError (List Nat) :=
  (MutableDocument.owned es).put

/-- `MutableDocument::to_vec` from `src/lib.rs`: computes `raw_len()`
(propagating its panic), fails with the `Io(InvalidData, ..)` size error
when the length is `>= 32 << 20` — before the output buffer is allocated
and before any byte is written — and otherwise encodes via `put`. -/
def MutableDocument.to_vec (d : MutableDocument) : Except PutError (List Nat) :=
  match d.raw_len with
  | none => .error .panik
  | some len =>
    if 32 <<< 20 ≤ len then .error (.ser .ioInvalidData)
    else d.put

example : (MutableDocument.owned .nil).to_vec = .ok [5, 0, 0, 0, 0] := rfl

/-- `ParsedDocument::get` (via `IndexMap::get`): the value stored for a
key, if present. -/
def ParsedDocument.get (k : List Nat) : ParsedDocument → Option MutableValue
  | .nil => none
  | .cons k2 v rest => if k2 = k then some v else ParsedDocument.get k rest

/-- `ParsedDocument::contains_key` (via `IndexMap::contains_key`). -/
def ParsedDocument.contains_key (k : List Nat) (es : ParsedDocument) : Bool :=
  (es.get k).isSome

/-- `ParsedDocument::insert` (via `IndexMap::insert`): if the key exists
its entry keeps its position and only the value is updated, returning the
previous value; otherwise the new entry is appended at the end and `none`
is returned. -/
def ParsedDocument.insert (k : List Nat) (v : MutableValue) :
    ParsedDocument → ParsedDocument × Option MutableValue
  | .nil => (.cons k v .nil, none)
  | .cons k2 v2 rest =>
    if k2 = k then (.cons k2 v rest, some v2)
    else
      let r := ParsedDocument.insert k v rest
      (.cons k2 v2 r.1, r.2)

/-- `ParsedDocument::remove` (via `IndexMap::shift_remove`): removes the
entry for the key, shifting later entries to preserve relative order, and
returns the removed value; absent keys leave the document unchanged. -/
def ParsedDocument.shift_remove (k : List Nat) :
    ParsedDocument → ParsedDocument × Option MutableValue
  | .nil => (.nil, none)
  | .cons k2 v2 rest =>
    if k2 = k then (rest, some v2)
    else
      let r := ParsedDocument.shift_remove k rest
      (.cons k2 v2 r.1, r.2)

/-- The ordered list of keys of a `ParsedDocument`. -/
def ParsedDocument.keys : ParsedDocument → List (List Nat)
  | .nil => []
  | .cons k _ rest => k :: rest.keys

/-- Appending one entry at the end of the order (what `IndexMap::insert`
does for a fresh key). -/
def ParsedDocument.append1 : ParsedDocument → List Nat → MutableValue → ParsedDocument
  | .nil, k, v => .cons k v .nil
  | .cons k2 v2 rest, k, v => .cons k2 v2 (rest.append1 k v)

/-- Number of values in an owned `MutableArray` payload. -/
def MutableValues.length : MutableValues → Nat
  | .nil => 0
  | .cons _ rest => rest.length + 1

/-- `Vec::push`: appending one value at the end of an owned array. -/
def MutableValues.append1 : MutableValues → MutableValue → MutableValues
  | .nil, w => .cons w .nil
  | .cons v rest, w => .cons v (rest.append1 w)

theorem leBytes_length (w n : Nat) : (leBytes w n).length = w := by
  induction w generalizing n with
  | zero => rfl
  | succ w ih => simp [leBytes, ih]

theorem putLenI32_ok {n : Nat} {out : List Nat} (h : putLenI32 n = .ok out) :
    out = leBytes 4 n ∧ out.length = 4 := by
  unfold putLenI32 at h
  split at h
  · cases h; exact ⟨rfl, leBytes_length 4 n⟩
  · cases h

theorem put_raw_cstr_ok {s out : List Nat} (h : put_raw_cstr s = .ok out) :
    out = s ++ [0] ∧ out.length = raw_cstr_len s ∧ 0 ∉ s := by
  unfold put_raw_cstr at h
  split at h
  · cases h
  · cases h
    refine ⟨rfl, ?_, by assumption⟩
    simp [raw_cstr_len]

theorem put_raw_str_ok {s out : List Nat} (h : put_raw_str s = .ok out) :
    out = leBytes 4 (s.length + 1) ++ s ++ [0] ∧ out.length = raw_str_len s := by
  unfold put_raw_str at h
  cases hpl : putLenI32 (s.length + 1) with
  | error e => rw [hpl] at h; cases h
  | ok lenB =>
    rw [hpl] at h
    cases h
    obtain ⟨hb, hl⟩ := putLenI32_ok hpl
    subst hb
    refine ⟨rfl, ?_⟩
    simp [raw_str_len, leBytes_length]
    omega

theorem mutableBinary_put_ok {b : MutableBinary} {out : List Nat} (h : b.put = .ok out) :
    out.length = b.raw_len := by
  cases b with
  | borrowed bytes subtypeByte | owned bytes subtypeByte =>
    simp only [MutableBinary.put] at h
    cases hpl : putLenI32 bytes.length with
    | error e => rw [hpl] at h; cases h
    | ok lenB =>
      rw [hpl] at h
      cases h
      obtain ⟨hb, hl⟩ := putLenI32_ok hpl
      simp [MutableBinary.raw_len, hl]
      omega

theorem mutableRegex_put_ok {r : MutableRegex} {out : List Nat} (h : r.put = .ok out) :
    out = r.parts.1 ++ [0] ++ (r.parts.2 ++ [0]) ∧ out.length = r.raw_len := by
  unfold MutableRegex.put at h
  cases hp : put_raw_cstr r.parts.1 with
  | error e => rw [hp] at h; cases h
  | ok pb =>
    rw [hp] at h
    cases ho : put_raw_cstr r.parts.2 with
    | error e => rw [ho] at h; cases h
    | ok ob =>
      rw [ho] at h
      cases h
      obtain ⟨hpb, hpl, -⟩ := put_raw_cstr_ok hp
      obtain ⟨hob, hol, -⟩ := put_raw_cstr_ok ho
      subst hpb; subst hob
      constructor
      · simp
      · simp only [MutableRegex.raw_len, raw_cstr_len, List.length_append,
          List.length_cons, List.length_nil]

theorem jscws_put_ok {c : MutableJavaScriptCodeWithScope}
    {out : List Nat} (h : c.put = .ok out) :
    out = leBytes 4 c.raw_len ++
      (leBytes 4 (c.codeOf.length + 1) ++ c.codeOf ++ [0]) ++ c.scopeBytesOf ∧
    out.length = c.raw_len := by
  unfold MutableJavaScriptCodeWithScope.put at h
  cases hpl : putLenI32 (raw_str_len c.codeOf + c.scopeBytesOf.length + 4) with
  | error e => rw [hpl] at h; cases h
  | ok lenB =>
    rw [hpl] at h
    cases hcs : put_raw_str c.codeOf with
    | error e => rw [hcs] at h; cases h
    | ok cb =>
      rw [hcs] at h
      cases h
      obtain ⟨hb, hl⟩ := putLenI32_ok hpl
      obtain ⟨hcb, hcl⟩ := put_raw_str_ok hcs
      subst hb; subst hcb
      have hrl : raw_str_len c.codeOf + c.scopeBytesOf.length + 4 = c.raw_len := by
        simp [MutableJavaScriptCodeWithScope.raw_len]; omega
      constructor
      · rw [hrl]
      · simp [← hrl, raw_str_len, leBytes_length]
        omega

theorem i32le_length (v : Int) : (i32le v).length = 4 := leBytes_length 4 _

theorem i64le_length (v : Int) : (i64le v).length = 8 := leBytes_length 8 _

mutual

theorem mutableValue_put_len : ∀ (v : MutableValue) (out : List Nat),
    v.put = .ok out → v.raw_len = some out.length
  | .double bits, out, h => by
    simp only [MutableValue.put, Except.ok.injEq] at h
    subst h
    simp [MutableValue.raw_len, leBytes_length]
  | .string s, out, h => by
    simp only [MutableValue.put] at h
    simp [MutableValue.raw_len, (put_raw_str_ok h).2]
  | .document d, out, h => by
    simp only [MutableValue.put] at h
    simpa [MutableValue.raw_len] using mutableDocument_put_len d out h
  | .array a, out, h => by
    simp only [MutableValue.put] at h
    simpa [MutableValue.raw_len] using mutableArray_put_len a out h
  | .binary b, out, h => by
    simp only [MutableValue.put] at h
    simp [MutableValue.raw_len, mutableBinary_put_ok h]
  | .undefined, out, h => by
    simp only [MutableValue.put, Except.ok.injEq] at h
    subst h
    simp [MutableValue.raw_len]
  | .objectId oid, out, h => by
    simp only [MutableValue.put, Except.ok.injEq] at h
    subst h
    simp [MutableValue.raw_len, leBytes_length]
  | .boolean v, out, h => by
    simp only [MutableValue.put, Except.ok.injEq] at h
    subst h
    simp [MutableValue.raw_len]
  | .dateTime millis, out, h => by
    simp only [MutableValue.put, Except.ok.injEq] at h
    subst h
    simp [MutableValue.raw_len, i64le_length]
  | .null, out, h => by
    simp only [MutableValue.put, Except.ok.injEq] at h
    subst h
    simp [MutableValue.raw_len]
  | .regularExpression r, out, h => by
    simp only [MutableValue.put] at h
    simp [MutableValue.raw_len, (mutableRegex_put_ok h).2]
  | .dbPointer, out, h => by
    simp only [MutableValue.put] at h
    exact absurd h (by simp)
  | .javaScriptCode s, out, h => by
    simp only [MutableValue.put] at h
    simp [MutableValue.raw_len, (put_raw_str_ok h).2]
  | .symbol s, out, h => by
    simp only [MutableValue.put] at h
    simp [MutableValue.raw_len, (put_raw_str_ok h).2]
  | .javaScriptCodeWithScope c, out, h => by
    simp only [MutableValue.put] at h
    simp [MutableValue.raw_len, (jscws_put_ok h).2]
  | .int32 v, out, h => by
    simp only [MutableValue.put, Except.ok.injEq] at h
    subst h
    simp [MutableValue.raw_len, i32le_length]
  | .timestamp increment time, out, h => by
    simp only [MutableValue.put, Except.ok.injEq] at h
    subst h
    simp [MutableValue.raw_len, leBytes_length]
  | .int64 v, out, h => by
    simp only [MutableValue.put, Except.ok.injEq] at h
    subst h
    simp [MutableValue.raw_len, i64le_length]
  | .decimal128 bits, out, h => by
    simp only [MutableValue.put, Except.ok.injEq] at h
    subst h
    simp [MutableValue.raw_len, leBytes_length]
  | .minKey, out, h => by
    simp only [MutableValue.put, Except.ok.injEq] at h
    subst h
    simp [MutableValue.raw_len]
  | .maxKey, out, h => by
    simp only [MutableValue.put, Except.ok.injEq] at h
    subst h
    simp [MutableValue.raw_len]

theorem ParsedDocument.put_entries_len : ∀ (es : ParsedDocument) (out : List Nat),
    es.put_entries = .ok out → es.entries_len = some out.length
  | .nil, out, h => by
    simp only [ParsedDocument.put_entries, Except.ok.injEq] at h
    subst h
    simp [ParsedDocument.entries_len]
  | .cons k v rest, out, h => by
    simp only [ParsedDocument.put_entries] at h
    split at h
    · exact absurd h (by simp)
    · rename_i kb hk
      split at h
      · exact absurd h (by simp)
      · rename_i vb hv
        split at h
        · exact absurd h (by simp)
        · rename_i rb hr
          simp only [Except.ok.injEq] at h
          subst h
          have ihv := mutableValue_put_len v vb hv
          have ihr := ParsedDocument.put_entries_len rest rb hr
          obtain ⟨hkb, hkl, -⟩ := put_raw_cstr_ok hk
          subst hkb
          simp only [ParsedDocument.entries_len, ihv, ihr, Option.some.injEq,
            List.length_cons, List.length_append, List.length_nil, raw_cstr_len]
          omega

theorem mutableDocument_put_len : ∀ (d : MutableDocument) (out : List Nat),
    d.put = .ok out → d.raw_len = some out.length
  | .borrowed bs, out, h => by
    simp only [MutableDocument.put, Except.ok.injEq] at h
    subst h
    simp [MutableDocument.raw_len]
  | .owned es, out, h => by
    simp only [MutableDocument.put] at h
    split at h
    · exact absurd h (by simp)
    · rename_i n hel
      split at h
      · exact absurd h (by simp)
      · rename_i lenB hpl
        split at h
        · exact absurd h (by simp)
        · rename_i body hpe
          simp only [Except.ok.injEq] at h
          subst h
          have ihb := ParsedDocument.put_entries_len es body hpe
          obtain ⟨hb, hbl⟩ := putLenI32_ok hpl
          rw [hel] at ihb
          simp only [Option.some.injEq] at ihb
          simp only [MutableDocument.raw_len, hel, Option.some.injEq,
            List.length_append, List.length_cons, List.length_nil, hbl]
          omega

theorem MutableValues.put_from_len : ∀ (i : Nat) (vs : MutableValues) (out : List Nat),
    MutableValues.put_from i vs = .ok out →
    MutableValues.entries_len_from i vs = some out.length
  | i, .nil, out, h => by
    simp only [MutableValues.put_from, Except.ok.injEq] at h
    subst h
    simp [MutableValues.entries_len_from]
  | i, .cons v rest, out, h => by
    simp only [MutableValues.put_from] at h
    split at h
    · exact absurd h (by simp)
    · rename_i kb hk
      split at h
      · exact absurd h (by simp)
      · rename_i vb hv
        split at h
        · exact absurd h (by simp)
        · rename_i rb hr
          simp only [Except.ok.injEq] at h
          subst h
          have ihv := mutableValue_put_len v vb hv
          have ihr := MutableValues.put_from_len (i + 1) rest rb hr
          obtain ⟨hkb, hkl, -⟩ := put_raw_cstr_ok hk
          subst hkb
          simp only [MutableValues.entries_len_from, ihv, ihr, Option.some.injEq,
            List.length_cons, List.length_append, List.length_nil, raw_cstr_len]
          omega

theorem mutableArray_put_len : ∀ (a : MutableArray) (out : List Nat),
    a.put = .ok out → a.raw_len = some out.length
  | .borrowed bs, out, h => by
    simp only [MutableArray.put, Except.ok.injEq] at h
    subst h
    simp [MutableArray.raw_len]
  | .owned vs, out, h => by
    simp only [MutableArray.put] at h
    split at h
    · exact absurd h (by simp)
    · rename_i n hel
      split at h
      · exact absurd h (by simp)
      · rename_i lenB hpl
        split at h
        · exact absurd h (by simp)
        · rename_i body hpe
          simp only [Except.ok.injEq] at h
          subst h
          have ihb := MutableValues.put_from_len 0 vs body hpe
          obtain ⟨hb, hbl⟩ := putLenI32_ok hpl
          rw [hel] at ihb
          simp only [Option.some.injEq] at ihb
          simp only [MutableArray.raw_len, hel, Option.some.injEq,
            List.length_append, List.length_cons, List.length_nil, hbl]
          omega

end

/-- Is this result the 32 MiB size-limit error (`Io(InvalidData, ..)`)
that `to_vec` raises? -/
def isSizeErr : Except PutError (List Nat) → Bool
  | .error (.ser .ioInvalidData) => true
  | _ => false

theorem putLenI32_not_size (n : Nat) : isSizeErr (putLenI32 n) = false := by
  unfold putLenI32
  split <;> simp [isSizeErr]

theorem put_raw_cstr_not_size (s : List Nat) : isSizeErr (put_raw_cstr s) = false := by
  unfold put_raw_cstr
  split <;> simp [isSizeErr]

theorem put_raw_str_not_size (s : List Nat) : isSizeErr (put_raw_str s) = false := by
  unfold put_raw_str
  cases h : putLenI32 (s.length + 1) with
  | error e =>
    have hn := putLenI32_not_size (s.length + 1)
    rw [h] at hn
    simpa [isSizeErr] using hn
  | ok lenB => simp [isSizeErr]

theorem mutableBinary_put_not_size (b : MutableBinary) : isSizeErr b.put = false := by
  cases b with
  | borrowed bytes subtypeByte | owned bytes subtypeByte =>
    simp only [MutableBinary.put]
    cases h : putLenI32 bytes.length with
    | error e =>
      have hn := putLenI32_not_size bytes.length
      rw [h] at hn
      simpa [isSizeErr] using hn
    | ok lenB => simp [isSizeErr]

theorem mutableRegex_put_not_size (r : MutableRegex) : isSizeErr r.put = false := by
  unfold MutableRegex.put
  cases hp : put_raw_cstr r.parts.1 with
  | error e =>
    have hn := put_raw_cstr_not_size r.parts.1
    rw [hp] at hn
    simpa [isSizeErr] using hn
  | ok pb =>
    cases ho : put_raw_cstr r.parts.2 with
    | error e =>
      have hn := put_raw_cstr_not_size r.parts.2
      rw [ho] at hn
      simpa [isSizeErr] using hn
    | ok ob => simp [isSizeErr]

theorem jscws_put_not_size (c : MutableJavaScriptCodeWithScope) :
    isSizeErr c.put = false := by
  unfold MutableJavaScriptCodeWithScope.put
  cases hpl : putLenI32 (raw_str_len c.codeOf + c.scopeBytesOf.length + 4) with
  | error e =>
    have hn := putLenI32_not_size (raw_str_len c.codeOf + c.scopeBytesOf.length + 4)
    rw [hpl] at hn
    simpa [isSizeErr] using hn
  | ok lenB =>
    cases hcs : put_raw_str c.codeOf with
    | error e =>
      have hn := put_raw_str_not_size c.codeOf
      rw [hcs] at hn
      simpa [isSizeErr] using hn
    | ok cb => simp [isSizeErr]

mutual

theorem mutableValue_put_not_size : ∀ v : MutableValue, isSizeErr v.put = false
  | .double bits => by simp [MutableValue.put, isSizeErr]
  | .string s => by simp only [MutableValue.put]; exact put_raw_str_not_size s
  | .document d => by simp only [MutableValue.put]; exact mutableDocument_put_not_size d
  | .array a => by simp only [MutableValue.put]; exact mutableArray_put_not_size a
  | .binary b => by simp only [MutableValue.put]; exact mutableBinary_put_not_size b
  | .undefined => by simp [MutableValue.put, isSizeErr]
  | .objectId oid => by simp [MutableValue.put, isSizeErr]
  | .boolean v => by simp [MutableValue.put, isSizeErr]
  | .dateTime millis => by simp [MutableValue.put, isSizeErr]
  | .null => by simp [MutableValue.put, isSizeErr]
  | .regularExpression r => by simp only [MutableValue.put]; exact mutableRegex_put_not_size r
  | .dbPointer => by simp [MutableValue.put, isSizeErr]
  | .javaScriptCode s => by simp only [MutableValue.put]; exact put_raw_str_not_size s
  | .symbol s => by simp only [MutableValue.put]; exact put_raw_str_not_size s
  | .javaScriptCodeWithScope c => by
    simp only [MutableValue.put]
    exact jscws_put_not_size c
  | .int32 v => by simp [MutableValue.put, isSizeErr]
  | .timestamp increment time => by simp [MutableValue.put, isSizeErr]
  | .int64 v => by simp [MutableValue.put, isSizeErr]
  | .decimal128 bits => by simp [MutableValue.put, isSizeErr]
  | .minKey => by simp [MutableValue.put, isSizeErr]
  | .maxKey => by simp [MutableValue.put, isSizeErr]

theorem ParsedDocument.put_entries_not_size : ∀ es : ParsedDocument,
    isSizeErr es.put_entries = false
  | .nil => by simp [ParsedDocument.put_entries, isSizeErr]
  | .cons k v rest => by
    simp only [ParsedDocument.put_entries]
    cases hk : put_raw_cstr k with
    | error e =>
      have hn := put_raw_cstr_not_size k
      rw [hk] at hn
      simpa [isSizeErr] using hn
    | ok kb =>
      cases hv : v.put with
      | error e =>
        have hn := mutableValue_put_not_size v
        rw [hv] at hn
        simpa [isSizeErr] using hn
      | ok vb =>
        cases hr : rest.put_entries with
        | error e =>
          have hn := ParsedDocument.put_entries_not_size rest
          rw [hr] at hn
          simpa [isSizeErr] using hn
        | ok rb => simp [isSizeErr]

theorem mutableDocument_put_not_size : ∀ d : MutableDocument, isSizeErr d.put = false
  | .borrowed bs => by simp [MutableDocument.put, isSizeErr]
  | .owned es => by
    simp only [MutableDocument.put]
    split
    · simp [isSizeErr]
    · rename_i n hel
      split
      · rename_i e hpl
        have hn := putLenI32_not_size (n + 4 + 1)
        rw [hpl] at hn
        exact hn
      · rename_i lenB hpl
        split
        · rename_i e hpe
          have hn := ParsedDocument.put_entries_not_size es
          rw [hpe] at hn
          exact hn
        · simp [isSizeErr]

theorem MutableValues.put_from_not_size : ∀ (i : Nat) (vs : MutableValues),
    isSizeErr (MutableValues.put_from i vs) = false
  | _, .nil => by simp [MutableValues.put_from, isSizeErr]
  | i, .cons v rest => by
    simp only [MutableValues.put_from]
    cases hk : put_raw_cstr (decBytes i) with
    | error e => simp [isSizeErr]
    | ok kb =>
      cases hv : v.put with
      | error e =>
        have hn := mutableValue_put_not_size v
        rw [hv] at hn
        simpa [isSizeErr] using hn
      | ok vb =>
        cases hr : MutableValues.put_from (i + 1) rest with
        | error e =>
          have hn := MutableValues.put_from_not_size (i + 1) rest
          rw [hr] at hn
          simpa [isSizeErr] using hn
        | ok rb => simp [isSizeErr]

theorem mutableArray_put_not_size : ∀ a : MutableArray, isSizeErr a.put = false
  | .borrowed bs => by simp [MutableArray.put, isSizeErr]
  | .owned vs => by
    simp only [MutableArray.put]
    split
    · simp [isSizeErr]
    · rename_i n hel
      split
      · rename_i e hpl
        have hn := putLenI32_not_size (n + 4 + 1)
        rw [hpl] at hn
        exact hn
      · rename_i lenB hpl
        split
        · rename_i e hpe
          have hn := MutableValues.put_from_not_size 0 vs
          rw [hpe] at hn
          exact hn
        · simp [isSizeErr]

end

/-- Is this result a typed `bson::ser::Error` failure (as opposed to a
success or a panic)? -/
def isSerErr : Except PutError (List Nat) → Bool
  | .error (.ser _) => true
  | _ => false

theorem shl_32_20 : (32 <<< 20 : Nat) = 33554432 := by decide

theorem isOkE_error (e : PutError) :
    (Except.error e : Except PutError (List Nat)).isOk = false := rfl

theorem isOkE_ok (l : List Nat) :
    (Except.ok l : Except PutError (List Nat)).isOk = true := rfl

/-- If some key of an owned document contains a NUL byte, the entry loop
of `ParsedDocument::put` cannot succeed. -/
theorem ParsedDocument.put_entries_fails_of_nul_key :
    ∀ es : ParsedDocument, (∃ k, k ∈ es.keys ∧ 0 ∈ k) →
      Except.isOk es.put_entries = false
  | .nil, ⟨k, hk, _⟩ => by simp [ParsedDocument.keys] at hk
  | .cons k2 v rest, ⟨k, hk, h0⟩ => by
    simp only [ParsedDocument.put_entries]
    cases hkc : put_raw_cstr k2 with
    | error e => simp [isOkE_error, isOkE_ok]
    | ok kb =>
      obtain ⟨-, -, h2⟩ := put_raw_cstr_ok hkc
      have hkr : k ∈ rest.keys := by
        simp only [ParsedDocument.keys, List.mem_cons] at hk
        rcases hk with rfl | hk
        · exact absurd h0 h2
        · exact hk
      cases hv : v.put with
      | error e => simp [isOkE_error, isOkE_ok]
      | ok vb =>
        cases hr : rest.put_entries with
        | error e => simp [isOkE_error, isOkE_ok]
        | ok rb =>
          have hf := ParsedDocument.put_entries_fails_of_nul_key rest ⟨k, hkr, h0⟩
          rw [hr] at hf
          simp [isOkE_ok] at hf

/-- If some key of an owned document contains a NUL byte,
`MutableDocument::put` fails. -/
theorem MutableDocument.put_fails_of_nul_key (es : ParsedDocument)
    (h : ∃ k, k ∈ es.keys ∧ 0 ∈ k) :
    Except.isOk (MutableDocument.owned es).put = false := by
  simp only [MutableDocument.put]
  split
  · simp [isOkE_error, isOkE_ok]
  · rename_i n hel
    split
    · simp [isOkE_error, isOkE_ok]
    · rename_i lenB hpl
      split
      · simp [isOkE_error, isOkE_ok]
      · rename_i body hpe
        have hf := ParsedDocument.put_entries_fails_of_nul_key es h
        rw [hpe] at hf
        simp [isOkE_ok] at hf

/-- If some key of an owned document contains a NUL byte,
`MutableDocument::to_vec` fails. -/
theorem MutableDocument.to_vec_fails_of_nul_key (es : ParsedDocument)
    (h : ∃ k, k ∈ es.keys ∧ 0 ∈ k) :
    Except.isOk (MutableDocument.owned es).to_vec = false := by
  unfold MutableDocument.to_vec
  split
  · simp [isOkE_error, isOkE_ok]
  · rename_i len hrl
    split
    · simp [isOkE_error, isOkE_ok]
    · exact MutableDocument.put_fails_of_nul_key es h

/-- C1 (counterexample): the claim says a string *value* containing a NUL
byte causes the encode call to fail, but `put_raw_str` performs no NUL
check: the document `{"a": "x\u0000y"}` (string value bytes
`[120, 0, 121]`) encodes successfully, with the NUL kept inside the
length-prefixed string payload. -/
theorem string_value_with_nul_encodes_ok :
    (MutableDocument.owned (.cons [97] (.string [120, 0, 121]) .nil)).to_vec
      = .ok [16, 0, 0, 0, 2, 97, 0, 4, 0, 0, 0, 120, 0, 121, 0, 0] := rfl

/-- C1 (amended): an embedded NUL in a key, regex pattern or regex options
fails encoding (keys through `put_raw_cstr` inside the entry loop, regex
parts with a typed `InvalidCString` error), while a string *value*
containing a NUL byte does not fail: `put_raw_str` writes the whole string
under its length prefix without truncation. -/
theorem embedded_nul_cstr_encode_fails (es : ParsedDocument) (r : MutableRegex)
    (s : List Nat) :
    ((∃ k, k ∈ es.keys ∧ 0 ∈ k) →
        Except.isOk (MutableDocument.owned es).to_vec = false)
  ∧ ((0 ∈ r.parts.1 ∨ 0 ∈ r.parts.2) →
        ∃ t, (MutableValue.regularExpression r).put
          = .error (.ser (.invalidCString t)) ∧ 0 ∈ t)
  ∧ (s.length + 1 ≤ 2 ^ 31 - 1 →
        (MutableValue.string s).put = .ok (leBytes 4 (s.length + 1) ++ s ++ [0])) := by
  refine ⟨MutableDocument.to_vec_fails_of_nul_key es, ?_, ?_⟩
  · intro hor
    simp only [MutableValue.put, MutableRegex.put]
    by_cases h1 : 0 ∈ r.parts.1
    · exact ⟨r.parts.1, by simp [put_raw_cstr, h1], h1⟩
    · have h2 : 0 ∈ r.parts.2 := hor.resolve_left h1
      exact ⟨r.parts.2, by simp [put_raw_cstr, h1, h2], h2⟩
  · intro hs
    simp only [MutableValue.put]
    unfold put_raw_str putLenI32
    rw [if_pos hs]

/-- Witness for `embedded_nul_cstr_encode_fails` at concrete inputs: the
document `{"\u0000": null}`, the regex `(pattern "f\u0000", options "i")`,
and the string value `"x\u0000y"`. -/
theorem embedded_nul_cstr_encode_fails_witness :
    Except.isOk
      (MutableDocument.owned (.cons [0] .null .nil)).to_vec = false
  ∧ (∃ t, (MutableValue.regularExpression (.owned [102, 0] [105])).put
        = .error (.ser (.invalidCString t)) ∧ 0 ∈ t)
  ∧ (MutableValue.string [120, 0, 121]).put
      = .ok (leBytes 4 4 ++ [120, 0, 121] ++ [0]) := by
  have h := embedded_nul_cstr_encode_fails (.cons [0] .null .nil)
    (.owned [102, 0] [105]) [120, 0, 121]
  exact ⟨h.1 ⟨[0], by simp [ParsedDocument.keys], by simp⟩,
    h.2.1 (Or.inl (by simp [MutableRegex.parts])),
    h.2.2 (by norm_num)⟩

/-- C2: `to_vec` fails with the size-limit error exactly when the computed
encoded length reaches 32 MiB (33,554,432 bytes); the check happens on the
computed length alone — before the output buffer is allocated and before
`put` runs (the error is returned no matter what `put` would do). Below
the ceiling `to_vec` is exactly `put`, which never constructs the
size-limit error. -/
theorem to_vec_size_limit (d : MutableDocument) (len : Nat)
    (h : d.raw_len = some len) :
    (33554432 ≤ len → d.to_vec = .error (.ser .ioInvalidData))
  ∧ (len < 33554432 → d.to_vec = d.put ∧ isSizeErr d.to_vec = false) := by
  constructor
  · intro hge
    unfold MutableDocument.to_vec
    rw [h]
    dsimp only
    rw [if_pos (by rw [shl_32_20]; exact hge)]
  · intro hlt
    have he : d.to_vec = d.put := by
      unfold MutableDocument.to_vec
      rw [h]
      dsimp only
      rw [if_neg (by rw [shl_32_20]; omega)]
    refine ⟨he, ?_⟩
    rw [he]
    exact mutableDocument_put_not_size d

/-- Witness for `to_vec_size_limit`: a 32 MiB borrowed span hits the
ceiling and fails; the empty owned document is below it and encodes. -/
theorem to_vec_size_limit_witness :
    (MutableDocument.borrowed (List.replicate 33554432 0)).to_vec
      = .error (.ser .ioInvalidData)
  ∧ (MutableDocument.owned .nil).to_vec = (MutableDocument.owned .nil).put := by
  constructor
  · exact (to_vec_size_limit _ 33554432
      (by rw [show (MutableDocument.borrowed (List.replicate 33554432 0)).raw_len
          = some (List.replicate 33554432 0).length from rfl,
          List.length_replicate])).1 (le_refl _)
  · exact ((to_vec_size_limit (MutableDocument.owned .nil) 5 rfl).2 (by norm_num)).1

/-- C3: whenever `MutableValue::put` succeeds, the number of bytes it
wrote equals `raw_len` — for every variant (fixed-size scalars at their
fixed widths and variable-size kinds per their wire rules, as defined by
`MutableValue.raw_len` / `MutableValue.put`). -/
theorem put_length_eq_raw_len (v : MutableValue) (out : List Nat)
    (h : v.put = .ok out) : v.raw_len = some out.length :=
  mutableValue_put_len v out h

/-- Witness for `put_length_eq_raw_len` on the document value
`{"a": "hi"}` (15 encoded bytes). -/
theorem put_length_eq_raw_len_witness :
    MutableValue.raw_len
        (.document (.owned (.cons [97] (.string [104, 105]) .nil)))
      = some [15, 0, 0, 0, 2, 97, 0, 3, 0, 0, 0, 104, 105, 0, 0].length :=
  put_length_eq_raw_len _ _ rfl

/-- C7: a `Borrowed` document or array reports its byte-span length as its
encoded length and re-encodes to exactly the original bytes; `to_vec` on a
borrowed span below the size ceiling returns the span verbatim. -/
theorem borrowed_passthrough (bs : List Nat) :
    (MutableDocument.borrowed bs).raw_len = some bs.length
  ∧ (MutableDocument.borrowed bs).put = .ok bs
  ∧ (MutableArray.borrowed bs).raw_len = some bs.length
  ∧ (MutableArray.borrowed bs).put = .ok bs
  ∧ (bs.length < 33554432 → (MutableDocument.borrowed bs).to_vec = .ok bs) := by
  refine ⟨rfl, rfl, rfl, rfl, fun hlt => ?_⟩
  show (if 32 <<< 20 ≤ bs.length then
      Except.error (.ser .ioInvalidData) else (MutableDocument.borrowed bs).put)
    = .ok bs
  rw [if_neg (by rw [shl_32_20]; omega)]
  rfl

/-- Witness for `borrowed_passthrough` on the 5-byte empty-document span. -/
theorem borrowed_passthrough_witness :
    (MutableDocument.borrowed [5, 0, 0, 0, 0]).to_vec = .ok [5, 0, 0, 0, 0] :=
  (borrowed_passthrough [5, 0, 0, 0, 0]).2.2.2.2 (by norm_num)

/-- C10 (counterexample): encoding a `DbPointer` is `unimplemented!()` — a
panic, not a typed `bson::ser::Error` propagated to the caller as the
claim states. -/
theorem db_pointer_encode_counterexample :
    MutableValue.put .dbPointer = .error .panik
  ∧ isSerErr (MutableValue.put .dbPointer) = false := ⟨rfl, rfl⟩

/-- C10 (amended): computing the encoded length of or encoding a
`DbPointer` is an unconditional failure — never silently wrong output —
but the failure is a panic (`unimplemented!`), not a typed encode error
returned to the caller. -/
theorem db_pointer_encode_unimplemented :
    MutableValue.raw_len .dbPointer = none
  ∧ MutableValue.put .dbPointer = .error .panik
  ∧ Except.isOk (MutableValue.put .dbPointer) = false
  ∧ isSerErr (MutableValue.put .dbPointer) = false := ⟨rfl, rfl, rfl, rfl⟩

/-- Successful entry-loop output for a document entry decomposes as: tag
byte, NUL-terminated key, value bytes, remaining entries. -/
theorem ParsedDocument.put_entries_cons_ok {k : List Nat} {v : MutableValue}
    {rest : ParsedDocument} {out : List Nat}
    (h : (ParsedDocument.cons k v rest).put_entries = .ok out) :
    ∃ vb rb, v.put = .ok vb ∧ rest.put_entries = .ok rb ∧ 0 ∉ k ∧
      out = v.element_type :: (k ++ [0] ++ vb ++ rb) ∧
      out.length = 1 + (k.length + 1) + vb.length + rb.length := by
  simp only [ParsedDocument.put_entries] at h
  split at h
  · exact absurd h (by simp)
  · rename_i kb hk
    split at h
    · exact absurd h (by simp)
    · rename_i vb hv
      split at h
      · exact absurd h (by simp)
      · rename_i rb hr
        simp only [Except.ok.injEq] at h
        subst h
        obtain ⟨hkb, hkl, hnk⟩ := put_raw_cstr_ok hk
        subst hkb
        refine ⟨vb, rb, hv, hr, hnk, by simp, by simp; omega⟩

/-- Successful `MutableDocument::put` output on an owned document
decomposes as: 4-byte little-endian total length, entry bytes, NUL. -/
theorem MutableDocument.put_owned_ok {es : ParsedDocument} {out : List Nat}
    (h : (MutableDocument.owned es).put = .ok out) :
    ∃ body, es.put_entries = .ok body ∧
      out = leBytes 4 out.length ++ body ++ [0] ∧
      out.length = body.length + 4 + 1 := by
  have hlen := mutableDocument_put_len _ _ h
  simp only [MutableDocument.put] at h
  split at h
  · exact absurd h (by simp)
  · rename_i n hel
    split at h
    · exact absurd h (by simp)
    · rename_i lenB hpl
      split at h
      · exact absurd h (by simp)
      · rename_i body hpe
        simp only [Except.ok.injEq] at h
        subst h
        obtain ⟨hb, hbl⟩ := putLenI32_ok hpl
        have hn : es.entries_len = some body.length :=
          ParsedDocument.put_entries_len es body hpe
        rw [hel] at hn
        simp only [Option.some.injEq] at hn
        subst hn
        refine ⟨body, hpe, ?_, by simp [hbl]; omega⟩
        have : (leBytes 4 (body.length + 4 + 1) ++ body ++ [0]).length
            = body.length + 4 + 1 := by
          simp [leBytes_length]
          omega
        rw [hb, this]

/-- C4: the encoding of an `Owned` document is the 4-byte little-endian
total length (which equals the byte count of the whole output), then for
each entry in order a tag byte, the NUL-terminated key and the value
bytes, then a final NUL; the total length is the entry bytes plus 5
(4-byte prefix + terminator), each entry contributing
1 (tag) + key length + 1 (NUL) + value length; the empty owned document
encodes to exactly `05 00 00 00 00`. -/
theorem owned_document_encoding_layout :
    (∀ (es : ParsedDocument) (out : List Nat),
        (MutableDocument.owned es).put = .ok out →
        ∃ body, es.put_entries = .ok body ∧
          out = leBytes 4 out.length ++ body ++ [0] ∧
          (MutableDocument.owned es).raw_len = some out.length ∧
          out.length = body.length + 4 + 1)
  ∧ (∀ (k : List Nat) (v : MutableValue) (rest : ParsedDocument) (out : List Nat),
        (ParsedDocument.cons k v rest).put_entries = .ok out →
        ∃ vb rb, v.put = .ok vb ∧ rest.put_entries = .ok rb ∧
          out = v.element_type :: (k ++ [0] ++ vb ++ rb) ∧
          out.length = 1 + (k.length + 1) + vb.length + rb.length)
  ∧ (MutableDocument.owned .nil).to_vec = .ok [5, 0, 0, 0, 0] := by
  refine ⟨?_, ?_, rfl⟩
  · intro es out h
    obtain ⟨body, hpe, ho, hl⟩ := MutableDocument.put_owned_ok h
    exact ⟨body, hpe, ho, mutableDocument_put_len _ _ h, hl⟩
  · intro k v rest out h
    obtain ⟨vb, rb, hv, hr, -, ho, hl⟩ := ParsedDocument.put_entries_cons_ok h
    exact ⟨vb, rb, hv, hr, ho, hl⟩

/-- Witness for `owned_document_encoding_layout` on `{"a": true}`
(9 encoded bytes). -/
theorem owned_document_encoding_layout_witness :
    ∃ body, (ParsedDocument.cons [97] (.boolean true) .nil).put_entries = .ok body ∧
      [9, 0, 0, 0, 8, 97, 0, 1, 0]
        = leBytes 4 [9, 0, 0, 0, 8, 97, 0, 1, 0].length ++ body ++ [0] ∧
      (MutableDocument.owned (.cons [97] (.boolean true) .nil)).raw_len
        = some [9, 0, 0, 0, 8, 97, 0, 1, 0].length ∧
      [9, 0, 0, 0, 8, 97, 0, 1, 0].length = body.length + 4 + 1 :=
  owned_document_encoding_layout.1 (.cons [97] (.boolean true) .nil)
    [9, 0, 0, 0, 8, 97, 0, 1, 0] rfl

/-- C6 (counterexample): for code "a" with the empty scope document
(5 bytes), the written 4-byte total length is 15 — the byte count of the
*entire* code-with-scope payload including the 4 length bytes themselves —
not 11 (= code string field + scope bytes) as the claim states. -/
theorem code_with_scope_length_counterexample :
    (MutableJavaScriptCodeWithScope.borrowed [97] [5, 0, 0, 0, 0]).put
      = .ok [15, 0, 0, 0, 2, 0, 0, 0, 97, 0, 5, 0, 0, 0, 0]
  ∧ List.take 4 [15, 0, 0, 0, 2, 0, 0, 0, 97, 0, 5, 0, 0, 0, 0] = leBytes 4 15
  ∧ leBytes 4 15 ≠ leBytes 4 (6 + 5) := by
  refine ⟨rfl, rfl, by decide⟩

/-- C6 (amended): the code-with-scope encoding is a 4-byte total length
followed by the length-prefixed code string followed by the scope
document's bytes, where the written total length covers the *whole*
payload including the 4 length bytes themselves: it equals
4 + (code string field bytes) + (scope bytes). -/
theorem code_with_scope_layout (c : MutableJavaScriptCodeWithScope)
    (out : List Nat) (h : c.put = .ok out) :
    out = leBytes 4 out.length
        ++ (leBytes 4 (c.codeOf.length + 1) ++ c.codeOf ++ [0])
        ++ c.scopeBytesOf
  ∧ out.length = 4 + (4 + c.codeOf.length + 1) + c.scopeBytesOf.length := by
  obtain ⟨ho, hl⟩ := jscws_put_ok h
  have hrl : c.raw_len = 4 + (4 + c.codeOf.length + 1) + c.scopeBytesOf.length := by
    simp only [MutableJavaScriptCodeWithScope.raw_len, raw_str_len]
  constructor
  · rw [hl]
    exact ho
  · rw [hl, hrl]

/-- Witness for `code_with_scope_layout` on code "a" with the 5-byte empty
scope. -/
theorem code_with_scope_layout_witness :
    [15, 0, 0, 0, 2, 0, 0, 0, 97, 0, 5, 0, 0, 0, 0]
      = leBytes 4 [15, 0, 0, 0, 2, 0, 0, 0, 97, 0, 5, 0, 0, 0, 0].length
        ++ (leBytes 4 ([97].length + 1) ++ [97] ++ [0]) ++ [5, 0, 0, 0, 0]
  ∧ [15, 0, 0, 0, 2, 0, 0, 0, 97, 0, 5, 0, 0, 0, 0].length
      = 4 + (4 + [97].length + 1) + [5, 0, 0, 0, 0].length :=
  code_with_scope_layout (.owned [97] [5, 0, 0, 0, 0]) _ rfl

theorem decBytesCore_small {fuel m : Nat} {acc : List Nat} (hm : m < 10)
    (hf : 1 ≤ fuel) : decBytesCore fuel m acc = (48 + m) :: acc := by
  cases fuel with
  | zero => omega
  | succ f => simp [decBytesCore, hm]

/-- Single decimal digit for indices 0–9. -/
theorem decBytes_small {n : Nat} (h : n < 10) : decBytes n = [48 + n] := by
  unfold decBytes
  apply decBytesCore_small h
  omega

/-- Two decimal digits for indices 10–99. -/
theorem decBytes_two {n : Nat} (h10 : 10 ≤ n) (h100 : n < 100) :
    decBytes n = [48 + n / 10, 48 + n % 10] := by
  unfold decBytes
  rw [show n + 1 = (n - 1) + 2 by omega]
  simp only [decBytesCore, if_neg (by omega : ¬ n < 10)]
  rw [if_pos (by omega : n / 10 < 10)]

theorem decBytesCore_ge {fuel m : Nat} {acc : List Nat}
    (hacc : ∀ d ∈ acc, 48 ≤ d) :
    ∀ d ∈ decBytesCore fuel m acc, 48 ≤ d := by
  induction fuel generalizing m acc with
  | zero => simpa [decBytesCore] using hacc
  | succ f ih =>
    simp only [decBytesCore]
    split
    · intro d hd
      rcases List.mem_cons.mp hd with rfl | hd
      · omega
      · exact hacc d hd
    · refine ih ?_
      intro d hd
      rcases List.mem_cons.mp hd with rfl | hd
      · omega
      · exact hacc d hd

/-- `itoa` output never contains a NUL byte (every digit is ASCII 48–57). -/
theorem decBytes_no_nul (n : Nat) : 0 ∉ decBytes n := by
  intro h
  have := @decBytesCore_ge (n + 1) n [] (by intro d hd; cases hd) 0 h
  omega

theorem put_raw_cstr_decBytes (n : Nat) :
    put_raw_cstr (decBytes n) = .ok (decBytes n ++ [0]) := by
  unfold put_raw_cstr
  rw [if_neg (decBytes_no_nul n)]

/-- Successful entry-loop output for an owned array value decomposes as:
tag byte, NUL-terminated decimal index key, value bytes, rest. -/
theorem MutableValues.put_from_cons_ok {i : Nat} {v : MutableValue}
    {rest : MutableValues} {out : List Nat}
    (h : MutableValues.put_from i (.cons v rest) = .ok out) :
    ∃ vb rb, v.put = .ok vb ∧ MutableValues.put_from (i + 1) rest = .ok rb ∧
      out = v.element_type :: (decBytes i ++ [0] ++ vb ++ rb) ∧
      out.length = 1 + ((decBytes i).length + 1) + vb.length + rb.length := by
  simp only [MutableValues.put_from] at h
  split at h
  · exact absurd h (by simp)
  · rename_i kb hk
    split at h
    · exact absurd h (by simp)
    · rename_i vb hv
      split at h
      · exact absurd h (by simp)
      · rename_i rb hr
        simp only [Except.ok.injEq] at h
        subst h
        rw [put_raw_cstr_decBytes] at hk
        simp only [Except.ok.injEq] at hk
        subst hk
        refine ⟨vb, rb, hv, hr, by simp, by simp; omega⟩

/-- Appending a value to an owned array appends one entry to its encoded
body, keyed by the decimal string of the next index. -/
theorem MutableValues.put_from_append1 :
    ∀ (vs : MutableValues) (i : Nat) (w : MutableValue) (b wb : List Nat),
      MutableValues.put_from i vs = .ok b → w.put = .ok wb →
      MutableValues.put_from i (vs.append1 w)
        = .ok (b ++ (w.element_type :: (decBytes (i + vs.length) ++ [0] ++ wb)))
  | .nil, i, w, b, wb, hb, hw => by
    simp only [MutableValues.put_from, Except.ok.injEq] at hb
    subst hb
    simp only [MutableValues.append1, MutableValues.length, MutableValues.put_from,
      put_raw_cstr_decBytes, hw]
    simp
  | .cons v rest, i, w, b, wb, hb, hw => by
    obtain ⟨vb, rb, hv, hr, hout, -⟩ := MutableValues.put_from_cons_ok hb
    subst hout
    have ih := MutableValues.put_from_append1 rest (i + 1) w rb wb hr hw
    simp only [MutableValues.append1, MutableValues.put_from,
      put_raw_cstr_decBytes, hv, ih, MutableValues.length]
    have hi : i + 1 + rest.length = i + (rest.length + 1) := by omega
    simp [hi, List.append_assoc]

/-- C5: the entries of an `Owned` array are encoded like document entries
whose keys are the decimal strings of the zero-based positions, recomputed
at each encode from the position alone (the list stores no keys); the
computed length accounts for the decimal width of each index (1 byte for
0–9, 2 bytes for 10–99); appending a value `w` to an array whose body
encoded at indices `0..` leaves the existing body unchanged and adds a
final entry keyed by the decimal string of the old element count. -/
theorem owned_array_encoding_keys :
    (∀ (i : Nat) (v : MutableValue) (rest : MutableValues) (out : List Nat),
        MutableValues.put_from i (.cons v rest) = .ok out →
        ∃ vb rb, v.put = .ok vb ∧ MutableValues.put_from (i + 1) rest = .ok rb ∧
          out = v.element_type :: (decBytes i ++ [0] ++ vb ++ rb))
  ∧ (∀ (i : Nat) (vs : MutableValues) (out : List Nat),
        MutableValues.put_from i vs = .ok out →
        MutableValues.entries_len_from i vs = some out.length)
  ∧ (∀ n : Nat, n < 10 → (decBytes n).length = 1)
  ∧ (∀ n : Nat, 10 ≤ n → n < 100 → (decBytes n).length = 2)
  ∧ (∀ (vs : MutableValues) (w : MutableValue) (b wb : List Nat),
        MutableValues.put_from 0 vs = .ok b → w.put = .ok wb →
        MutableValues.put_from 0 (vs.append1 w)
          = .ok (b ++ (w.element_type :: (decBytes vs.length ++ [0] ++ wb)))) := by
  refine ⟨?_, MutableValues.put_from_len, ?_, ?_, ?_⟩
  · intro i v rest out h
    obtain ⟨vb, rb, hv, hr, ho, -⟩ := MutableValues.put_from_cons_ok h
    exact ⟨vb, rb, hv, hr, ho⟩
  · intro n h
    rw [decBytes_small h]
    rfl
  · intro n h10 h100
    rw [decBytes_two h10 h100]
    rfl
  · intro vs w b wb hb hw
    simpa using MutableValues.put_from_append1 vs 0 w b wb hb hw

/-- Witness for `owned_array_encoding_keys`: the one-element array `[1]`
(entry key "0"), digit widths at 7 and 12, and appending `false` to the
array `[null]` (new entry keyed "1" last). -/
theorem owned_array_encoding_keys_witness :
    (∃ vb rb, (MutableValue.int32 1).put = .ok vb ∧
        MutableValues.put_from 1 .nil = .ok rb ∧
        [16, 48, 0, 1, 0, 0, 0]
          = (MutableValue.int32 1).element_type :: (decBytes 0 ++ [0] ++ vb ++ rb))
  ∧ MutableValues.entries_len_from 0 (.cons (.int32 1) .nil) = some 7
  ∧ (decBytes 7).length = 1
  ∧ (decBytes 12).length = 2
  ∧ MutableValues.put_from 0 ((MutableValues.cons .null .nil).append1 (.boolean false))
      = .ok ([10, 48, 0]
          ++ ((MutableValue.boolean false).element_type
              :: (decBytes (MutableValues.cons .null .nil).length ++ [0] ++ [0]))) := by
  have h := owned_array_encoding_keys
  exact ⟨h.1 0 (.int32 1) .nil [16, 48, 0, 1, 0, 0, 0] rfl,
    h.2.1 0 (.cons (.int32 1) .nil) [16, 48, 0, 1, 0, 0, 0] rfl,
    h.2.2.1 7 (by norm_num),
    h.2.2.2.1 12 (by norm_num) (by norm_num),
    h.2.2.2.2 (.cons .null .nil) (.boolean false) [10, 48, 0] [0] rfl rfl⟩

/-- C8: `insert` on an owned document replaces in place when the key
exists (same ordinal position: the key sequence is unchanged and no other
key's value moves), returning the previous value; a fresh key is appended
at the end and `none` is returned; in both cases a subsequent `get`
returns the inserted value. -/
theorem parsed_document_insert_spec : ∀ (es : ParsedDocument) (k : List Nat)
    (v : MutableValue),
    ((es.insert k v).1.get k = some v)
  ∧ ((es.insert k v).2 = es.get k)
  ∧ (es.contains_key k = true → (es.insert k v).1.keys = es.keys)
  ∧ (es.contains_key k = false → (es.insert k v).1 = es.append1 k v)
  ∧ (∀ k2, k2 ≠ k → (es.insert k v).1.get k2 = es.get k2)
  | .nil, k, v => by
    refine ⟨by simp [ParsedDocument.insert, ParsedDocument.get], rfl, ?_, fun _ => rfl, ?_⟩
    · intro hc
      simp [ParsedDocument.contains_key, ParsedDocument.get] at hc
    · intro k2 hk2
      simp [ParsedDocument.insert, ParsedDocument.get, Ne.symm hk2]
  | .cons k1 v1 rest, k, v => by
    have ih := parsed_document_insert_spec rest k v
    by_cases hk : k1 = k
    · subst hk
      refine ⟨by simp [ParsedDocument.insert, ParsedDocument.get],
        by simp [ParsedDocument.insert, ParsedDocument.get],
        fun _ => by simp [ParsedDocument.insert, ParsedDocument.keys], ?_, ?_⟩
      · intro hc
        simp [ParsedDocument.contains_key, ParsedDocument.get] at hc
      · intro k2 hk2
        simp [ParsedDocument.insert, ParsedDocument.get, Ne.symm hk2]
    · obtain ⟨ih1, ih2, ih3, ih4, ih5⟩ := ih
      have hcc : (ParsedDocument.cons k1 v1 rest).contains_key k
          = rest.contains_key k := by
        simp [ParsedDocument.contains_key, ParsedDocument.get, hk]
      refine ⟨by simp [ParsedDocument.insert, ParsedDocument.get, hk, ih1],
        by simp [ParsedDocument.insert, ParsedDocument.get, hk, ih2], ?_, ?_, ?_⟩
      · intro hc
        rw [hcc] at hc
        simp [ParsedDocument.insert, ParsedDocument.keys, hk, ih3 hc]
      · intro hc
        rw [hcc] at hc
        simp [ParsedDocument.insert, ParsedDocument.append1, hk, ih4 hc]
      · intro k2 hk2
        by_cases hx : k1 = k2
        · subst hx
          simp [ParsedDocument.insert, ParsedDocument.get, hk]
        · simp [ParsedDocument.insert, ParsedDocument.get, hk, hx, ih5 k2 hk2]

/-- Witness for `parsed_document_insert_spec` on the document
`{"a": 1, "b": 2}`, re-inserting "a" and inserting fresh "c". -/
theorem parsed_document_insert_spec_witness :
    ((ParsedDocument.cons [97] (.int32 1) (.cons [98] (.int32 2) .nil)).insert
        [97] (.int32 9)).1.keys
      = (ParsedDocument.cons [97] (.int32 1) (.cons [98] (.int32 2) .nil)).keys
  ∧ ((ParsedDocument.cons [97] (.int32 1) (.cons [98] (.int32 2) .nil)).insert
        [97] (.int32 9)).2 = some (.int32 1)
  ∧ ((ParsedDocument.cons [97] (.int32 1) (.cons [98] (.int32 2) .nil)).insert
        [99] (.int32 3)).1
      = (ParsedDocument.cons [97] (.int32 1) (.cons [98] (.int32 2) .nil)).append1
          [99] (.int32 3)
  ∧ ((ParsedDocument.cons [97] (.int32 1) (.cons [98] (.int32 2) .nil)).insert
        [99] (.int32 3)).1.get [99] = some (.int32 3) := by
  have h1 := parsed_document_insert_spec
    (.cons [97] (.int32 1) (.cons [98] (.int32 2) .nil)) [97] (.int32 9)
  have h2 := parsed_document_insert_spec
    (.cons [97] (.int32 1) (.cons [98] (.int32 2) .nil)) [99] (.int32 3)
  exact ⟨h1.2.2.1 rfl, h1.2.1, h2.2.2.2.1 rfl, h2.1⟩

/-- C9: `remove` on an owned document returns the removed value and
deletes its entry, shifting the rest so the key order is the original
order with the key erased; other keys' values are untouched; an absent
key returns `none` and leaves the document unchanged. -/
theorem parsed_document_remove_spec : ∀ (es : ParsedDocument) (k : List Nat),
    ((es.shift_remove k).2 = es.get k)
  ∧ (es.contains_key k = false →
        (es.shift_remove k).1 = es ∧ (es.shift_remove k).2 = none)
  ∧ ((es.shift_remove k).1.keys = es.keys.erase k)
  ∧ (∀ k2, k2 ≠ k → (es.shift_remove k).1.get k2 = es.get k2)
  | .nil, k => ⟨rfl, fun _ => ⟨rfl, rfl⟩, rfl, fun _ _ => rfl⟩
  | .cons k1 v1 rest, k => by
    have ih := parsed_document_remove_spec rest k
    by_cases hk : k1 = k
    · subst hk
      refine ⟨by simp [ParsedDocument.shift_remove, ParsedDocument.get], ?_,
        by simp [ParsedDocument.shift_remove, ParsedDocument.keys], ?_⟩
      · intro hc
        simp [ParsedDocument.contains_key, ParsedDocument.get] at hc
      · intro k2 hk2
        simp [ParsedDocument.shift_remove, ParsedDocument.get, Ne.symm hk2]
    · obtain ⟨ih1, ih2, ih3, ih4⟩ := ih
      have hcc : (ParsedDocument.cons k1 v1 rest).contains_key k
          = rest.contains_key k := by
        simp [ParsedDocument.contains_key, ParsedDocument.get, hk]
      refine ⟨by simp [ParsedDocument.shift_remove, ParsedDocument.get, hk, ih1],
        ?_, ?_, ?_⟩
      · intro hc
        rw [hcc] at hc
        obtain ⟨ha, hb⟩ := ih2 hc
        constructor
        · simp [ParsedDocument.shift_remove, hk, ha]
        · simp [ParsedDocument.shift_remove, hk, hb]
      · simp [ParsedDocument.shift_remove, ParsedDocument.keys, hk, ih3,
          List.erase_cons]
      · intro k2 hk2
        by_cases hx : k1 = k2
        · subst hx
          simp [ParsedDocument.shift_remove, ParsedDocument.get, hk]
        · simp [ParsedDocument.shift_remove, ParsedDocument.get, hk, hx, ih4 k2 hk2]

/-- Witness for `parsed_document_remove_spec` on `{"a":1,"b":2,"c":3}`:
removing "b" leaves key order ["a","c"], returns the old value, and
removing an absent key is a no-op returning `none`. -/
theorem parsed_document_remove_spec_witness :
    ((ParsedDocument.cons [97] (.int32 1)
        (.cons [98] (.int32 2) (.cons [99] (.int32 3) .nil))).shift_remove
        [98]).1.keys
      = (ParsedDocument.cons [97] (.int32 1)
          (.cons [98] (.int32 2) (.cons [99] (.int32 3) .nil))).keys.erase [98]
  ∧ ((ParsedDocument.cons [97] (.int32 1)
        (.cons [98] (.int32 2) (.cons [99] (.int32 3) .nil))).shift_remove
        [98]).2 = some (.int32 2)
  ∧ ((ParsedDocument.cons [97] (.int32 1)
        (.cons [98] (.int32 2) (.cons [99] (.int32 3) .nil))).shift_remove
        [100]).1
      = ParsedDocument.cons [97] (.int32 1)
          (.cons [98] (.int32 2) (.cons [99] (.int32 3) .nil)) := by
  have h1 := parsed_document_remove_spec
    (.cons [97] (.int32 1) (.cons [98] (.int32 2) (.cons [99] (.int32 3) .nil))) [98]
  have h2 := parsed_document_remove_spec
    (.cons [97] (.int32 1) (.cons [98] (.int32 2) (.cons [99] (.int32 3) .nil))) [100]
  exact ⟨h1.2.2.1, h1.1, (h2.2.1 rfl).1⟩
